import Mathlib

/-!
Verification development for the `pool<T>` object pool of `src/main.cpp`.

The C++ class is embedded shallowly:

* `size_t` counters are modelled as `Nat`.  Every counter in the class is
  bounded by the number of element slots ever allocated; each slot occupies
  at least 64 bytes (the `alignas(64)` `Element`), so a counter can only
  approach `2 ^ 64` after `operator new[]` has already failed.  Unsigned
  wrap-around is therefore unreachable and is not modelled.
* the raw pointer `BlockInfo::ptr` is modelled by the Boolean field
  `alive` (`ptr != nullptr`); a retired block keeps its `capacity` entry in
  the `blocks` vector, exactly as in the C++ code, but its `alive` flag
  drops to `false`.
* `object_ptrs` (a `std::vector<void*>`) is modelled as a
  `List (Option T)`: a null pointer becomes `none`, a pointer to a
  constructed object becomes `some v` where `v` is the stored value
  (pointer-to-value abstraction).
* a `throw` of `std::out_of_range` and placement-construction into a block
  whose memory has been released (undefined behaviour in C++) are both
  modelled by returning `none`; the C++ functions throw before performing
  any mutation, and the model mirrors that by producing no successor state.
* a constructor of `T` that throws during `push_back` is modelled by the
  separate operation `push_throw`, which performs exactly the mutations the
  C++ code has performed before the placement `new` expression runs.
-/

/-- Models `struct BlockInfo { void* ptr; size_t capacity; size_t refcount; }`;
`alive` stands for `ptr != nullptr`. -/
structure BlockInfo where
  alive : Bool
  capacity : Nat
  refcount : Nat
deriving DecidableEq, Repr

/-- Models the data members of `pool<T>`: `blocks`, `object_ptrs`,
`free_list`, `block_size`, `count`, `total_capacity`. -/
structure pool (T : Type) where
  blocks : List BlockInfo
  object_ptrs : List (Option T)
  free_list : List Nat
  block_size : Nat
  count : Nat
  total_capacity : Nat
deriving DecidableEq, Repr

namespace pool

variable {T : Type}

/-- Sum of the `capacity` fields of a block list. -/
def capSum (bs : List BlockInfo) : Nat := (bs.map (fun b => b.capacity)).sum

/-- Models `pool::get_block_and_offset`: walk the block list, subtracting
each block's capacity, and return the block index and in-block offset; the
final `throw` is modelled by `none`. -/
def get_block_and_offset : List BlockInfo → Nat → Option (Nat × Nat)
  | [], _ => none
  | b :: rest, i =>
    if i < b.capacity then some (0, i)
    else (get_block_and_offset rest (i - b.capacity)).map (fun q => (q.1 + 1, q.2))

/-- Whether the block that global index `i` falls into is still allocated
(`ptr != nullptr`); `false` also when `i` is beyond every block. -/
def blockAliveAt (bs : List BlockInfo) (i : Nat) : Bool :=
  (Option.map (fun b => b.alive) ((get_block_and_offset bs i).bind (fun q => bs[q.1]?))).getD
    false

/-- Models the constructor `pool(size_t initial_capacity)`, which sets the
counters and immediately calls `add_block(block_size)`. -/
def init (T : Type) (initial_capacity : Nat) : pool T :=
  { blocks := [⟨true, initial_capacity, 0⟩]
    object_ptrs := []
    free_list := []
    block_size := initial_capacity
    count := 0
    total_capacity := initial_capacity }

/-- Models `pool::grow`: double `block_size`, append a fresh block of the
new size (`add_block` inlined; its timing log is I/O only) and add the new
size to `total_capacity`. -/
def grow (p : pool T) : pool T :=
  let new_block_size := p.block_size * 2
  { p with
    blocks := p.blocks ++ [⟨true, new_block_size, 0⟩]
    total_capacity := p.total_capacity + new_block_size
    block_size := new_block_size }

/-- Models `pool::push_back`, returning the global index the object was
stored under together with the new state.  The free-list branch pops
`free_list.back()`; the append branch grows when `count == total_capacity`
and stores under global index `count`.  Placement-construction inside a
block whose memory was already released (`ptr == nullptr`, undefined
behaviour in C++) yields `none`. -/
def push_back (p : pool T) (v : T) : Option (Nat × pool T) :=
  match p.free_list.getLast? with
  | some insert_idx =>
    match get_block_and_offset p.blocks insert_idx with
    | some (block_idx, _offset) =>
      match p.blocks[block_idx]? with
      | some b =>
        if b.alive then
          some (insert_idx,
            { p with
              free_list := p.free_list.dropLast
              object_ptrs := p.object_ptrs.set insert_idx (some v)
              blocks := p.blocks.set block_idx { b with refcount := b.refcount + 1 } })
        else none
      | none => none
    | none => none
  | none =>
    let p1 := if p.count = p.total_capacity then grow p else p
    match get_block_and_offset p1.blocks p1.count with
    | some (block_idx, _offset) =>
      match p1.blocks[block_idx]? with
      | some b =>
        if b.alive then
          some (p1.count,
            { p1 with
              object_ptrs := p1.object_ptrs ++ [some v]
              blocks := p1.blocks.set block_idx { b with refcount := b.refcount + 1 }
              count := p1.count + 1 })
        else none
      | none => none
    | none => none

/-- Models `pool::push_back` when the constructor of `T` throws at the
placement `new`: only the mutations the C++ code performed before the
construction survive (the free-list pop, or the growth), and nothing else
is recorded. -/
def push_throw (p : pool T) : Option (pool T) :=
  match p.free_list.getLast? with
  | some insert_idx =>
    match get_block_and_offset p.blocks insert_idx with
    | some (block_idx, _offset) =>
      match p.blocks[block_idx]? with
      | some b =>
        if b.alive then some { p with free_list := p.free_list.dropLast }
        else none
      | none => none
    | none => none
  | none =>
    let p1 := if p.count = p.total_capacity then grow p else p
    match get_block_and_offset p1.blocks p1.count with
    | some (block_idx, _offset) =>
      match p1.blocks[block_idx]? with
      | some b => if b.alive then some p1 else none
      | none => none
    | none => none

/-- Helper for block retirement: the loop in `pool::erase` that sets
`object_ptrs[abs_idx] = nullptr` for every `abs_idx` in
`[base, base + capacity)` that is inside the vector.  `pos` is the global
index of the head of `l`. -/
def clearFrom (l : List (Option T)) (pos base cap : Nat) : List (Option T) :=
  match l with
  | [] => []
  | x :: xs =>
    (if base ≤ pos ∧ pos < base + cap then none else x) :: clearFrom xs (pos + 1) base cap

/-- Null out every `object_ptrs` entry whose global index lies in
`[base, base + cap)`. -/
def clearRange (l : List (Option T)) (base cap : Nat) : List (Option T) :=
  clearFrom l 0 base cap

/-- Models `pool::erase`: throw (`none`) when the index is out of range or
already deleted; otherwise destroy the object, null its entry, push the
index on the free list and decrement the block's refcount; when the
refcount reaches zero, retire the block (null the whole range, purge the
free list, release the memory). -/
def erase (p : pool T) (idx : Nat) : Option (pool T) :=
  match p.object_ptrs[idx]? with
  | some (some _) =>
    match get_block_and_offset p.blocks idx with
    | some (block_idx, _offset) =>
      match p.blocks[block_idx]? with
      | some b =>
        let ops1 := p.object_ptrs.set idx none
        let fl1 := p.free_list ++ [idx]
        if b.refcount - 1 = 0 then
          let base := capSum (p.blocks.take block_idx)
          some
            { p with
              object_ptrs := clearRange ops1 base b.capacity
              free_list := fl1.filter (fun i => !(decide (base ≤ i ∧ i < base + b.capacity)))
              blocks := p.blocks.set block_idx { b with refcount := 0, alive := false } }
        else
          some
            { p with
              object_ptrs := ops1
              free_list := fl1
              blocks := p.blocks.set block_idx { b with refcount := b.refcount - 1 } }
      | none => none
    | none => none
  | _ => none

/-- Models `pool::is_alive`: `idx < object_ptrs.size() && object_ptrs[idx]`. -/
def is_alive (p : pool T) (idx : Nat) : Bool :=
  match p.object_ptrs[idx]? with
  | some (some _) => true
  | _ => false

/-- Models `pool::operator[]`: the stored value, or `none` for the
`std::out_of_range` throw. -/
def lookup (p : pool T) (idx : Nat) : Option T :=
  match p.object_ptrs[idx]? with
  | some (some v) => some v
  | _ => none

/-- Models `pool::size`: returns `count`. -/
def size (p : pool T) : Nat := p.count

/-- Models `pool::capacity`: returns `total_capacity`. -/
def capacity (p : pool T) : Nat := p.total_capacity

/-- Number of `object_ptrs` entries currently holding a live object. -/
def live_count (p : pool T) : Nat := p.object_ptrs.countP (fun o => o.isSome)

end pool

/-- One client operation on the pool: a successful insertion of `v`, an
insertion whose `T`-constructor throws, or a removal. -/
inductive Op (T : Type) where
  | push (v : T)
  | pushThrow
  | eraseIdx (idx : Nat)
deriving DecidableEq, Repr

namespace pool

variable {T : Type}

/-- Apply one operation; `none` when the C++ code throws out of `erase`
or runs into undefined behaviour. -/
def step (p : pool T) : Op T → Option (pool T)
  | Op.push v => (push_back p v).map (fun r => r.2)
  | Op.pushThrow => push_throw p
  | Op.eraseIdx i => erase p i

/-- Run a list of operations from a given state. -/
def runFrom (p : pool T) : List (Op T) → Option (pool T)
  | [] => some p
  | op :: rest =>
    match step p op with
    | some q => runFrom q rest
    | none => none

/-- Run a list of operations on a freshly constructed pool. -/
def run (T : Type) (initial_capacity : Nat) (ops : List (Op T)) : Option (pool T) :=
  runFrom (init T initial_capacity) ops

end pool

namespace pool

/-- State reached by `pool<int> p(2); p.push_back(7);`. -/
def pW1 : pool Nat :=
  ⟨[⟨true, 2, 1⟩], [some 7], [], 2, 1, 2⟩

/-- State reached by `pool<int> p(4); p.push_back(0); p.erase(0);` — the
erase drops block 0's refcount to 0, so the block is retired. -/
def pA : pool Nat :=
  ⟨[⟨false, 4, 0⟩], [none], [], 4, 1, 4⟩

/-- State reached by `pool<int> p(2); p.push_back(0); p.push_back(1);
p.erase(0);` — index 0 is on the free list, block 0 still has one live
object. -/
def pB : pool Nat :=
  ⟨[⟨true, 2, 1⟩], [none, some 1], [0], 2, 2, 2⟩

/-- State after a `push_back` on `pB` whose `T`-constructor throws: the
free list has been popped, nothing else changed. -/
def qB : pool Nat :=
  ⟨[⟨true, 2, 1⟩], [none, some 1], [], 2, 2, 2⟩

/-- State reached by `pool<int> p(4)` followed by four `push_back`s: the
single block is full. -/
def p4c : pool Nat :=
  ⟨[⟨true, 4, 4⟩], [some 0, some 1, some 2, some 3], [], 4, 4, 4⟩

/-- State after the fifth `push_back` on `p4c`: one growth by `4 * 2 = 8`
happened, total capacity 12. -/
def q4c : pool Nat :=
  ⟨[⟨true, 4, 4⟩, ⟨true, 8, 1⟩], [some 0, some 1, some 2, some 3, some 9], [], 8, 5, 12⟩

end pool

namespace pool

variable {T : Type}

theorem capSum_append (bs bs' : List BlockInfo) :
    capSum (bs ++ bs') = capSum bs + capSum bs' := by
  simp [capSum]

theorem capSum_take_succ {bs : List BlockInfo} {j : Nat} {b : BlockInfo}
    (h : bs[j]? = some b) :
    capSum (bs.take (j + 1)) = capSum (bs.take j) + b.capacity := by
  rw [List.take_succ, capSum_append, h]
  rfl

theorem capSum_take_mono (bs : List BlockInfo) {j j' : Nat} (h : j ≤ j') :
    capSum (bs.take j) ≤ capSum (bs.take j') := by
  have h2 : (bs.take j').take j = bs.take j := by
    rw [List.take_take, Nat.min_eq_left h]
  have h1 : bs.take j ++ (bs.take j').drop j = bs.take j' := by
    rw [← h2]
    exact List.take_append_drop j (bs.take j')
  calc capSum (bs.take j) ≤ capSum (bs.take j) + capSum ((bs.take j').drop j) :=
        Nat.le_add_right _ _
    _ = capSum (bs.take j') := by rw [← capSum_append, h1]

theorem capSum_take_congr {bs bs' : List BlockInfo}
    (h : bs.map (fun x => x.capacity) = bs'.map (fun x => x.capacity)) (j : Nat) :
    capSum (bs.take j) = capSum (bs'.take j) := by
  unfold capSum
  rw [List.map_take, List.map_take]
  show ((bs.map (fun x => x.capacity)).take j).sum = ((bs'.map (fun x => x.capacity)).take j).sum
  rw [h]

theorem capSum_cons (b : BlockInfo) (rest : List BlockInfo) :
    capSum (b :: rest) = b.capacity + capSum rest := by
  simp [capSum]

theorem gbo_isSome_iff (bs : List BlockInfo) (i : Nat) :
    (get_block_and_offset bs i).isSome = true ↔ i < capSum bs := by
  induction bs generalizing i with
  | nil => simp [get_block_and_offset, capSum]
  | cons b rest ih =>
    rw [capSum_cons]
    by_cases hlt : i < b.capacity
    · simp only [get_block_and_offset, if_pos hlt, Option.isSome_some]
      constructor
      · intro _
        omega
      · intro _
        trivial
    · simp only [get_block_and_offset, if_neg hlt, Option.isSome_map']
      rw [ih]
      omega

theorem gbo_congr {bs bs' : List BlockInfo}
    (h : bs.map (fun x => x.capacity) = bs'.map (fun x => x.capacity)) (i : Nat) :
    get_block_and_offset bs i = get_block_and_offset bs' i := by
  induction bs generalizing bs' i with
  | nil =>
    cases bs' with
    | nil => rfl
    | cons c cs => simp at h
  | cons b rest ih =>
    cases bs' with
    | nil => simp at h
    | cons c cs =>
      simp only [List.map_cons, List.cons.injEq] at h
      obtain ⟨hc, hrest⟩ := h
      simp only [get_block_and_offset, hc, ih hrest]

theorem gbo_spec {bs : List BlockInfo} {i bi off : Nat}
    (h : get_block_and_offset bs i = some (bi, off)) :
    ∃ b, bs[bi]? = some b ∧ off < b.capacity ∧ i = capSum (bs.take bi) + off := by
  induction bs generalizing i bi off with
  | nil => simp [get_block_and_offset] at h
  | cons b rest ih =>
    by_cases hlt : i < b.capacity
    · simp only [get_block_and_offset, if_pos hlt, Option.some.injEq, Prod.mk.injEq] at h
      obtain ⟨h1, h2⟩ := h
      subst h1; subst h2
      refine ⟨b, by simp, hlt, by simp [capSum]⟩
    · simp only [get_block_and_offset, if_neg hlt, Option.map_eq_some'] at h
      obtain ⟨⟨bi', off'⟩, hrec, heq⟩ := h
      simp only [Prod.mk.injEq] at heq
      obtain ⟨h1, h2⟩ := heq
      subst h2
      obtain ⟨bb, hget, hoff, hsum⟩ := ih hrec
      subst h1
      refine ⟨bb, by simpa using hget, hoff, ?_⟩
      have htake : capSum ((b :: rest).take (bi' + 1)) = b.capacity + capSum (rest.take bi') := by
        rw [List.take_succ_cons, capSum_cons]
      rw [htake]
      omega

theorem gbo_block_lt {bs : List BlockInfo} {i bi off : Nat}
    (h : get_block_and_offset bs i = some (bi, off)) : bi < bs.length := by
  obtain ⟨b, hb, -, -⟩ := gbo_spec h
  exact (List.getElem?_eq_some.mp hb).1

theorem gbo_unique {bs : List BlockInfo} {k bk ok bi : Nat} {b : BlockInfo}
    (hk : get_block_and_offset bs k = some (bk, ok))
    (hbi : bs[bi]? = some b)
    (hge : capSum (bs.take bi) ≤ k)
    (hlt : k < capSum (bs.take bi) + b.capacity) : bk = bi := by
  obtain ⟨bb, hbb, hok, hsum⟩ := gbo_spec hk
  rcases Nat.lt_trichotomy bk bi with hcase | hcase | hcase
  · exfalso
    have hsucc := capSum_take_succ hbb
    have hmono := capSum_take_mono bs (show bk + 1 ≤ bi by omega)
    omega
  · exact hcase
  · exfalso
    have hsucc := capSum_take_succ hbi
    have hmono := capSum_take_mono bs (show bi + 1 ≤ bk by omega)
    omega

theorem gbo_append_left {bs : List BlockInfo} {i : Nat} (bs' : List BlockInfo)
    (h : i < capSum bs) :
    get_block_and_offset (bs ++ bs') i = get_block_and_offset bs i := by
  induction bs generalizing i with
  | nil => simp [capSum] at h
  | cons b rest ih =>
    by_cases hlt : i < b.capacity
    · simp [get_block_and_offset, if_pos hlt]
    · have hcs : capSum (b :: rest) = b.capacity + capSum rest := by simp [capSum]
      simp only [List.cons_append, get_block_and_offset, if_neg hlt]
      congr 1
      exact ih (by omega)

theorem clearFrom_getElem? (l : List (Option T)) (pos base cap k : Nat) :
    (clearFrom l pos base cap)[k]? =
      (l[k]?).map (fun x => if base ≤ pos + k ∧ pos + k < base + cap then none else x) := by
  induction l generalizing pos k with
  | nil => simp [clearFrom]
  | cons x xs ih =>
    cases k with
    | zero => simp [clearFrom]
    | succ k' =>
      simp only [clearFrom, List.getElem?_cons_succ]
      rw [ih (pos + 1) k']
      have harith : pos + 1 + k' = pos + (k' + 1) := by omega
      rw [harith]

theorem clearRange_getElem? (l : List (Option T)) (base cap k : Nat) :
    (clearRange l base cap)[k]? =
      (l[k]?).map (fun x => if base ≤ k ∧ k < base + cap then none else x) := by
  have := clearFrom_getElem? l 0 base cap k
  simpa [clearRange] using this

theorem clearFrom_length (l : List (Option T)) (pos base cap : Nat) :
    (clearFrom l pos base cap).length = l.length := by
  induction l generalizing pos with
  | nil => rfl
  | cons x xs ih => simp [clearFrom, ih]

theorem capMap_set {bs : List BlockInfo} {bi : Nat} {b b' : BlockInfo}
    (h : bs[bi]? = some b) (hc : b'.capacity = b.capacity) :
    (bs.set bi b').map (fun x => x.capacity) = bs.map (fun x => x.capacity) := by
  rw [List.map_set]
  apply List.ext_getElem?
  intro n
  by_cases hn : n = bi
  · subst hn
    have hlt : n < bs.length := (List.getElem?_eq_some.mp h).1
    rw [List.getElem?_set_self (by simpa using hlt)]
    rw [List.getElem?_map, h]
    simp [hc]
  · rw [List.getElem?_set_ne (by omega)]

theorem blockAliveAt_eval {bs : List BlockInfo} {i bj oj : Nat} {b : BlockInfo}
    (hg : get_block_and_offset bs i = some (bj, oj)) (hb : bs[bj]? = some b) :
    blockAliveAt bs i = b.alive := by
  unfold blockAliveAt
  rw [hg, Option.some_bind, hb]
  rfl

theorem blockAliveAt_of_gbo_none {bs : List BlockInfo} {i : Nat}
    (hg : get_block_and_offset bs i = none) : blockAliveAt bs i = false := by
  unfold blockAliveAt
  rw [hg]
  rfl

theorem blockAliveAt_set_alive_eq {bs : List BlockInfo} {bi : Nat} {b b' : BlockInfo}
    (h : bs[bi]? = some b) (hc : b'.capacity = b.capacity) (ha : b'.alive = b.alive) (i : Nat) :
    blockAliveAt (bs.set bi b') i = blockAliveAt bs i := by
  unfold blockAliveAt
  rw [gbo_congr (capMap_set h hc) i]
  cases hg : get_block_and_offset bs i with
  | none => rfl
  | some pr =>
    obtain ⟨bj, oj⟩ := pr
    rw [Option.some_bind, Option.some_bind]
    by_cases hbj : bj = bi
    · subst hbj
      have hlt : bj < bs.length := (List.getElem?_eq_some.mp h).1
      rw [List.getElem?_set_self hlt, h]
      simp [ha]
    · rw [List.getElem?_set_ne (by omega)]

theorem blockAliveAt_set_ne {bs : List BlockInfo} {bi : Nat} {b b' : BlockInfo}
    (h : bs[bi]? = some b) (hc : b'.capacity = b.capacity) {i : Nat}
    (hne : ∀ off, get_block_and_offset bs i ≠ some (bi, off)) :
    blockAliveAt (bs.set bi b') i = blockAliveAt bs i := by
  unfold blockAliveAt
  rw [gbo_congr (capMap_set h hc) i]
  cases hg : get_block_and_offset bs i with
  | none => rfl
  | some pr =>
    obtain ⟨bj, oj⟩ := pr
    rw [Option.some_bind, Option.some_bind]
    have hbj : bj ≠ bi := by
      intro hcontra
      exact hne oj (by rw [← hcontra]; exact hg)
    rw [List.getElem?_set_ne (by omega)]

theorem blockAliveAt_append {bs : List BlockInfo} (bs' : List BlockInfo) {i : Nat}
    (h : i < capSum bs) : blockAliveAt (bs ++ bs') i = blockAliveAt bs i := by
  unfold blockAliveAt
  rw [gbo_append_left bs' h]
  cases hg : get_block_and_offset bs i with
  | none => rfl
  | some pr =>
    obtain ⟨bj, oj⟩ := pr
    rw [Option.some_bind, Option.some_bind,
      List.getElem?_append_left (gbo_block_lt hg)]

theorem is_alive_iff {p : pool T} {i : Nat} :
    is_alive p i = true ↔ ∃ v, p.object_ptrs[i]? = some (some v) := by
  unfold is_alive
  cases h : p.object_ptrs[i]? with
  | none => simp
  | some o => cases o <;> simp

theorem is_alive_entry {p : pool T} {i : Nat} {v : T}
    (h : p.object_ptrs[i]? = some (some v)) : is_alive p i = true := by
  unfold is_alive
  rw [h]

theorem is_alive_false_of_none {p : pool T} {i : Nat}
    (h : p.object_ptrs[i]? = some none) : is_alive p i = false := by
  unfold is_alive
  rw [h]

theorem is_alive_false_of_oob {p : pool T} {i : Nat}
    (h : p.object_ptrs[i]? = none) : is_alive p i = false := by
  unfold is_alive
  rw [h]

theorem lookup_eq_some_iff {p : pool T} {i : Nat} {v : T} :
    lookup p i = some v ↔ p.object_ptrs[i]? = some (some v) := by
  unfold lookup
  cases h : p.object_ptrs[i]? with
  | none => simp
  | some o => cases o <;> simp

theorem lookup_isSome_eq_is_alive (p : pool T) (i : Nat) :
    (lookup p i).isSome = is_alive p i := by
  unfold lookup is_alive
  cases h : p.object_ptrs[i]? with
  | none => rfl
  | some o => cases o <;> rfl

/-- The state invariant maintained by every defined run of the pool:
`count` is the number of issued indices (the length of `object_ptrs`),
`total_capacity` is the capacity sum of the block list, issued indices fit
in the blocks, free-list entries are in-range null slots of still-allocated
blocks and are pairwise distinct, and live entries only sit in
still-allocated blocks. -/
structure Inv (p : pool T) : Prop where
  len_eq : p.count = p.object_ptrs.length
  cap_eq : p.total_capacity = capSum p.blocks
  count_le : p.count ≤ p.total_capacity
  free_mem : ∀ i ∈ p.free_list,
    p.object_ptrs[i]? = some none ∧ blockAliveAt p.blocks i = true
  free_nodup : p.free_list.Nodup
  live_ok : ∀ i v, p.object_ptrs[i]? = some (some v) → blockAliveAt p.blocks i = true

theorem inv_init (initial_capacity : Nat) : Inv (init T initial_capacity) := by
  constructor
  · rfl
  · simp [init, capSum]
  · simp [init]
  · intro i hi
    simp [init] at hi
  · simp [init]
  · intro i v hv
    simp [init] at hv

theorem inv_grow {p : pool T} (h : Inv p) : Inv (grow p) := by
  have hlen : ∀ i (v : Option T), p.object_ptrs[i]? = some v → i < capSum p.blocks := by
    intro i v hv
    have hi : i < p.object_ptrs.length := (List.getElem?_eq_some.mp hv).1
    have := h.len_eq
    have := h.count_le
    have := h.cap_eq
    omega
  constructor
  · exact h.len_eq
  · simp only [grow]
    rw [capSum_append, h.cap_eq]
    simp [capSum]
  · have := h.count_le
    simp only [grow]
    omega
  · intro i hi
    obtain ⟨h1, h2⟩ := h.free_mem i hi
    refine ⟨h1, ?_⟩
    simp only [grow]
    rw [blockAliveAt_append _ (hlen i none h1)]
    exact h2
  · exact h.free_nodup
  · intro i v hv
    have := h.live_ok i v hv
    simp only [grow]
    rw [blockAliveAt_append _ (hlen i (some v) hv)]
    exact this

theorem push_back_spec {p : pool T} {v : T} {j : Nat} {q : pool T}
    (h : push_back p v = some (j, q)) :
    (∃ block_idx off b,
       p.free_list.getLast? = some j ∧
       get_block_and_offset p.blocks j = some (block_idx, off) ∧
       p.blocks[block_idx]? = some b ∧ b.alive = true ∧
       q = { p with
             free_list := p.free_list.dropLast
             object_ptrs := p.object_ptrs.set j (some v)
             blocks := p.blocks.set block_idx { b with refcount := b.refcount + 1 } })
  ∨ (∃ p1 block_idx off b,
       p.free_list.getLast? = none ∧
       p1 = (if p.count = p.total_capacity then grow p else p) ∧
       get_block_and_offset p1.blocks p1.count = some (block_idx, off) ∧
       p1.blocks[block_idx]? = some b ∧ b.alive = true ∧
       j = p1.count ∧
       q = { p1 with
             object_ptrs := p1.object_ptrs ++ [some v]
             blocks := p1.blocks.set block_idx { b with refcount := b.refcount + 1 }
             count := p1.count + 1 }) := by
  unfold push_back at h
  cases hl : p.free_list.getLast? with
  | some insert_idx =>
    rw [hl] at h
    simp only [] at h
    cases hg : get_block_and_offset p.blocks insert_idx with
    | none => rw [hg] at h; simp at h
    | some pr =>
      obtain ⟨block_idx, off⟩ := pr
      rw [hg] at h
      simp only [] at h
      cases hb : p.blocks[block_idx]? with
      | none => rw [hb] at h; simp at h
      | some b =>
        rw [hb] at h
        simp only [] at h
        cases ha : b.alive with
        | false => rw [ha] at h; simp at h
        | true =>
          rw [ha] at h
          simp only [if_true, Option.some.injEq, Prod.mk.injEq] at h
          obtain ⟨hj, hq⟩ := h
          subst hj
          refine Or.inl ⟨block_idx, off, b, rfl, hg, hb, ha, ?_⟩
          rw [ha]
          exact hq.symm
  | none =>
    rw [hl] at h
    simp only [] at h
    cases hg : get_block_and_offset
        (if p.count = p.total_capacity then grow p else p).blocks
        (if p.count = p.total_capacity then grow p else p).count with
    | none => rw [hg] at h; simp at h
    | some pr =>
      obtain ⟨block_idx, off⟩ := pr
      rw [hg] at h
      simp only [] at h
      cases hb : (if p.count = p.total_capacity then grow p else p).blocks[block_idx]? with
      | none => rw [hb] at h; simp at h
      | some b =>
        rw [hb] at h
        simp only [] at h
        cases ha : b.alive with
        | false => rw [ha] at h; simp at h
        | true =>
          rw [ha] at h
          simp only [if_true, Option.some.injEq, Prod.mk.injEq] at h
          obtain ⟨hj, hq⟩ := h
          refine Or.inr ⟨_, block_idx, off, b, rfl, rfl, hg, hb, ha, hj.symm, ?_⟩
          rw [ha]
          exact hq.symm

theorem push_throw_spec {p : pool T} {q : pool T} (h : push_throw p = some q) :
    (p.free_list ≠ [] ∧ q = { p with free_list := p.free_list.dropLast })
  ∨ (p.free_list = [] ∧ (q = p ∨ q = grow p)) := by
  unfold push_throw at h
  cases hl : p.free_list.getLast? with
  | some insert_idx =>
    rw [hl] at h
    simp only [] at h
    cases hg : get_block_and_offset p.blocks insert_idx with
    | none => rw [hg] at h; simp at h
    | some pr =>
      obtain ⟨block_idx, off⟩ := pr
      rw [hg] at h
      simp only [] at h
      cases hb : p.blocks[block_idx]? with
      | none => rw [hb] at h; simp at h
      | some b =>
        rw [hb] at h
        simp only [] at h
        cases ha : b.alive with
        | false => rw [ha] at h; simp at h
        | true =>
          rw [ha] at h
          simp only [if_true, Option.some.injEq] at h
          refine Or.inl ⟨?_, h.symm⟩
          intro hnil
          rw [hnil] at hl
          simp at hl
  | none =>
    rw [hl] at h
    simp only [] at h
    cases hg : get_block_and_offset
        (if p.count = p.total_capacity then grow p else p).blocks
        (if p.count = p.total_capacity then grow p else p).count with
    | none => rw [hg] at h; simp at h
    | some pr =>
      obtain ⟨block_idx, off⟩ := pr
      rw [hg] at h
      simp only [] at h
      cases hb : (if p.count = p.total_capacity then grow p else p).blocks[block_idx]? with
      | none => rw [hb] at h; simp at h
      | some b =>
        rw [hb] at h
        simp only [] at h
        cases ha : b.alive with
        | false => rw [ha] at h; simp at h
        | true =>
          rw [ha] at h
          simp only [if_true, Option.some.injEq] at h
          have hfl : p.free_list = [] := by
            cases hfl : p.free_list with
            | nil => rfl
            | cons x xs => rw [hfl] at hl; simp [List.getLast?_eq_getLast] at hl
          refine Or.inr ⟨hfl, ?_⟩
          by_cases hfull : p.count = p.total_capacity
          · right
            rw [← h, if_pos hfull]
          · left
            rw [← h, if_neg hfull]

theorem erase_spec {p : pool T} {idx : Nat} {q : pool T} (h : erase p idx = some q) :
    ∃ v block_idx off b,
      p.object_ptrs[idx]? = some (some v) ∧
      get_block_and_offset p.blocks idx = some (block_idx, off) ∧
      p.blocks[block_idx]? = some b ∧
      ((b.refcount - 1 = 0 ∧
        q = { p with
              object_ptrs := clearRange (p.object_ptrs.set idx none)
                (capSum (p.blocks.take block_idx)) b.capacity
              free_list := (p.free_list ++ [idx]).filter
                (fun i => !(decide (capSum (p.blocks.take block_idx) ≤ i ∧
                  i < capSum (p.blocks.take block_idx) + b.capacity)))
              blocks := p.blocks.set block_idx { b with refcount := 0, alive := false } })
      ∨ (b.refcount - 1 ≠ 0 ∧
        q = { p with
              object_ptrs := p.object_ptrs.set idx none
              free_list := p.free_list ++ [idx]
              blocks := p.blocks.set block_idx { b with refcount := b.refcount - 1 } })) := by
  unfold erase at h
  cases he : p.object_ptrs[idx]? with
  | none => rw [he] at h; simp at h
  | some o =>
    cases o with
    | none => rw [he] at h; simp at h
    | some v =>
      rw [he] at h
      simp only [] at h
      cases hg : get_block_and_offset p.blocks idx with
      | none => rw [hg] at h; simp at h
      | some pr =>
        obtain ⟨block_idx, off⟩ := pr
        rw [hg] at h
        simp only [] at h
        cases hb : p.blocks[block_idx]? with
        | none => rw [hb] at h; simp at h
        | some b =>
          rw [hb] at h
          simp only [] at h
          by_cases hrc : b.refcount - 1 = 0
          · rw [if_pos hrc] at h
            simp only [Option.some.injEq] at h
            exact ⟨v, block_idx, off, b, rfl, rfl, hb, Or.inl ⟨hrc, h.symm⟩⟩
          · rw [if_neg hrc] at h
            simp only [Option.some.injEq] at h
            exact ⟨v, block_idx, off, b, rfl, rfl, hb, Or.inr ⟨hrc, h.symm⟩⟩

theorem capSum_set {bs : List BlockInfo} {bi : Nat} {b b' : BlockInfo}
    (h : bs[bi]? = some b) (hc : b'.capacity = b.capacity) :
    capSum (bs.set bi b') = capSum bs := by
  unfold capSum
  rw [capMap_set h hc]

theorem clearRange_length (l : List (Option T)) (base cap : Nat) :
    (clearRange l base cap).length = l.length :=
  clearFrom_length l 0 base cap

theorem capSum_set_rc {bs : List BlockInfo} {bi : Nat} {b : BlockInfo} (rc : Nat)
    (h : bs[bi]? = some b) :
    capSum (bs.set bi { b with refcount := rc }) = capSum bs :=
  capSum_set h rfl

theorem capMap_set_rc {bs : List BlockInfo} {bi : Nat} {b : BlockInfo} (rc : Nat)
    (h : bs[bi]? = some b) :
    (bs.set bi { b with refcount := rc }).map (fun x => x.capacity) =
      bs.map (fun x => x.capacity) :=
  @capMap_set bs bi b { b with refcount := rc } h rfl

theorem blockAliveAt_set_rc {bs : List BlockInfo} {bi : Nat} {b : BlockInfo} (rc : Nat)
    (h : bs[bi]? = some b) (i : Nat) :
    blockAliveAt (bs.set bi { b with refcount := rc }) i = blockAliveAt bs i :=
  @blockAliveAt_set_alive_eq bs bi b { b with refcount := rc } h rfl rfl i

theorem capSum_set_retire {bs : List BlockInfo} {bi : Nat} {b : BlockInfo}
    (h : bs[bi]? = some b) :
    capSum (bs.set bi { b with refcount := 0, alive := false }) = capSum bs :=
  capSum_set h rfl

theorem blockAliveAt_set_retire_ne {bs : List BlockInfo} {bi : Nat} {b : BlockInfo}
    (h : bs[bi]? = some b) {i : Nat}
    (hne : ∀ off, get_block_and_offset bs i ≠ some (bi, off)) :
    blockAliveAt (bs.set bi { b with refcount := 0, alive := false }) i = blockAliveAt bs i :=
  @blockAliveAt_set_ne bs bi b { b with refcount := 0, alive := false } h rfl i hne

theorem inv_push_back {p : pool T} {v : T} {j : Nat} {q : pool T}
    (hInv : Inv p) (h : push_back p v = some (j, q)) : Inv q := by
  rcases push_back_spec h with
    ⟨block_idx, off, b, hl, hg, hb, ha, hq⟩ |
    ⟨p1, block_idx, off, b, hl, hp1, hg, hb, ha, hj, hq⟩
  · obtain ⟨ys, hys⟩ := List.getLast?_eq_some_iff.mp hl
    have hdrop : p.free_list.dropLast = ys := by
      rw [hys]
      exact List.dropLast_concat
    have hmem : j ∈ p.free_list := List.mem_of_getLast?_eq_some hl
    obtain ⟨hentry, halive⟩ := hInv.free_mem j hmem
    have hnotin : j ∉ ys := by
      have hnd := hInv.free_nodup
      rw [hys] at hnd
      exact List.disjoint_singleton.mp (List.nodup_append.mp hnd).2.2
    subst hq
    constructor
    · simpa using hInv.len_eq
    · show p.total_capacity = capSum (p.blocks.set block_idx _)
      rw [capSum_set_rc (b.refcount + 1) hb]
      exact hInv.cap_eq
    · exact hInv.count_le
    · intro i hi
      replace hi : i ∈ p.free_list.dropLast := hi
      rw [hdrop] at hi
      have himem : i ∈ p.free_list := by
        rw [hys]
        exact List.mem_append_left _ hi
      obtain ⟨h1, h2⟩ := hInv.free_mem i himem
      have hne : j ≠ i := fun hcontra => hnotin (hcontra ▸ hi)
      constructor
      · show (p.object_ptrs.set j (some v))[i]? = some none
        rw [List.getElem?_set_ne hne]
        exact h1
      · show blockAliveAt (p.blocks.set block_idx _) i = true
        rw [blockAliveAt_set_rc (b.refcount + 1) hb]
        exact h2
    · exact List.Nodup.sublist (List.dropLast_sublist _) hInv.free_nodup
    · intro i w hw
      replace hw : (p.object_ptrs.set j (some v))[i]? = some (some w) := hw
      show blockAliveAt (p.blocks.set block_idx _) i = true
      rw [blockAliveAt_set_rc (b.refcount + 1) hb]
      by_cases hij : i = j
      · subst hij
        exact halive
      · rw [List.getElem?_set_ne (fun hcontra => hij hcontra.symm)] at hw
        exact hInv.live_ok i w hw
  · have hInv1 : Inv p1 := by
      rw [hp1]
      by_cases hfull : p.count = p.total_capacity
      · rw [if_pos hfull]
        exact inv_grow hInv
      · rw [if_neg hfull]
        exact hInv
    have hfl : p1.free_list = [] := by
      have hfl0 : p.free_list = [] := List.getLast?_eq_none_iff.mp hl
      rw [hp1]
      by_cases hfull : p.count = p.total_capacity
      · rw [if_pos hfull]
        exact hfl0
      · rw [if_neg hfull]
        exact hfl0
    have hlt : p1.count < p1.total_capacity := by
      have hs : (get_block_and_offset p1.blocks p1.count).isSome = true := by
        rw [hg]
        rfl
      have := (gbo_isSome_iff p1.blocks p1.count).mp hs
      rw [hInv1.cap_eq]
      exact this
    subst hq
    constructor
    · show p1.count + 1 = (p1.object_ptrs ++ [some v]).length
      simp [hInv1.len_eq]
    · show p1.total_capacity = capSum (p1.blocks.set block_idx _)
      rw [capSum_set_rc (b.refcount + 1) hb]
      exact hInv1.cap_eq
    · show p1.count + 1 ≤ p1.total_capacity
      omega
    · intro i hi
      replace hi : i ∈ p1.free_list := hi
      rw [hfl] at hi
      simp at hi
    · show p1.free_list.Nodup
      rw [hfl]
      exact List.nodup_nil
    · intro i w hw
      replace hw : (p1.object_ptrs ++ [some v])[i]? = some (some w) := hw
      show blockAliveAt (p1.blocks.set block_idx _) i = true
      rw [blockAliveAt_set_rc (b.refcount + 1) hb]
      rcases Nat.lt_trichotomy i p1.object_ptrs.length with hi | hi | hi
      · rw [List.getElem?_append_left hi] at hw
        exact hInv1.live_ok i w hw
      · subst hi
        have hba := blockAliveAt_eval hg hb
        rw [hInv1.len_eq] at hba
        rw [hba]
        exact ha
      · rw [List.getElem?_eq_none (by simp; omega)] at hw
        exact absurd hw (by simp)

theorem inv_push_throw {p : pool T} {q : pool T}
    (hInv : Inv p) (h : push_throw p = some q) : Inv q := by
  rcases push_throw_spec h with ⟨-, hq⟩ | ⟨-, hq | hq⟩
  · subst hq
    constructor
    · exact hInv.len_eq
    · exact hInv.cap_eq
    · exact hInv.count_le
    · intro i hi
      replace hi : i ∈ p.free_list.dropLast := hi
      exact hInv.free_mem i (List.dropLast_sublist _ |>.subset hi)
    · exact List.Nodup.sublist (List.dropLast_sublist _) hInv.free_nodup
    · exact hInv.live_ok
  · subst hq
    exact hInv
  · subst hq
    exact inv_grow hInv

theorem inv_erase {p : pool T} {idx : Nat} {q : pool T}
    (hInv : Inv p) (h : erase p idx = some q) : Inv q := by
  obtain ⟨v, block_idx, off, b, hent, hg, hb, hbr⟩ := erase_spec h
  have hidxlt : idx < p.object_ptrs.length := (List.getElem?_eq_some.mp hent).1
  have hnotfree : idx ∉ p.free_list := by
    intro hmem
    have := (hInv.free_mem idx hmem).1
    rw [hent] at this
    simp at this
  have hnd1 : (p.free_list ++ [idx]).Nodup :=
    List.Nodup.append hInv.free_nodup (List.nodup_singleton idx)
      (List.disjoint_singleton.mpr hnotfree)
  have halive_idx : blockAliveAt p.blocks idx = true := hInv.live_ok idx v hent
  obtain ⟨bb, hbb, hoffb, hsumb⟩ := gbo_spec hg
  rw [hb] at hbb
  injection hbb with hbb
  subst hbb
  have hrange_idx : capSum (p.blocks.take block_idx) ≤ idx ∧
      idx < capSum (p.blocks.take block_idx) + b.capacity := by
    constructor <;> omega
  have hne_of_notin : ∀ k bk ok, get_block_and_offset p.blocks k = some (bk, ok) →
      ¬(capSum (p.blocks.take block_idx) ≤ k ∧
        k < capSum (p.blocks.take block_idx) + b.capacity) →
      ∀ o, get_block_and_offset p.blocks k ≠ some (block_idx, o) := by
    intro k bk ok hk hnotin o hcontra
    obtain ⟨bb2, hbb2, hok2, hksum2⟩ := gbo_spec hcontra
    rw [hb] at hbb2
    injection hbb2 with hbb2
    subst hbb2
    exact hnotin ⟨by omega, by omega⟩
  rcases hbr with ⟨hrc, hq⟩ | ⟨hrc, hq⟩
  · -- retirement branch
    subst hq
    constructor
    · show p.count = (clearRange (p.object_ptrs.set idx none) _ _).length
      rw [clearRange_length, List.length_set]
      exact hInv.len_eq
    · show p.total_capacity = capSum (p.blocks.set block_idx _)
      rw [capSum_set_retire hb]
      exact hInv.cap_eq
    · exact hInv.count_le
    · intro i hi
      replace hi : i ∈ (p.free_list ++ [idx]).filter
          (fun i => !(decide (capSum (p.blocks.take block_idx) ≤ i ∧
            i < capSum (p.blocks.take block_idx) + b.capacity))) := hi
      rw [List.mem_filter] at hi
      obtain ⟨hi1, hi2⟩ := hi
      have hnotin : ¬(capSum (p.blocks.take block_idx) ≤ i ∧
          i < capSum (p.blocks.take block_idx) + b.capacity) := by
        have h3 := hi2
        simp at h3
        omega
      have himem : i ∈ p.free_list := by
        rcases List.mem_append.mp hi1 with hmem | hmem
        · exact hmem
        · exfalso
          simp only [List.mem_singleton] at hmem
          subst hmem
          exact hnotin hrange_idx
      obtain ⟨h1, h2⟩ := hInv.free_mem i himem
      have hne : idx ≠ i := by
        intro hcontra
        subst hcontra
        rw [hent] at h1
        simp at h1
      constructor
      · show (clearRange (p.object_ptrs.set idx none) _ _)[i]? = some none
        rw [clearRange_getElem?, List.getElem?_set_ne hne, h1]
        by_cases hcond : capSum (p.blocks.take block_idx) ≤ i ∧
            i < capSum (p.blocks.take block_idx) + b.capacity
        · simp [if_pos hcond]
        · simp [if_neg hcond]
      · show blockAliveAt (p.blocks.set block_idx _) i = true
        cases hgi : get_block_and_offset p.blocks i with
        | none =>
          rw [blockAliveAt_of_gbo_none hgi] at h2
          exact absurd h2 (by simp)
        | some pr =>
          obtain ⟨bk, ok⟩ := pr
          rw [blockAliveAt_set_retire_ne hb (hne_of_notin i bk ok hgi hnotin)]
          exact h2
    · exact List.Nodup.sublist (List.filter_sublist _) hnd1
    · intro i w hw
      replace hw : (clearRange (p.object_ptrs.set idx none)
          (capSum (p.blocks.take block_idx)) b.capacity)[i]? = some (some w) := hw
      rw [clearRange_getElem?] at hw
      rw [Option.map_eq_some'] at hw
      obtain ⟨x, hx, hfx⟩ := hw
      have hnotin : ¬(capSum (p.blocks.take block_idx) ≤ i ∧
          i < capSum (p.blocks.take block_idx) + b.capacity) := by
        intro hcond
        rw [if_pos hcond] at hfx
        simp at hfx
      rw [if_neg hnotin] at hfx
      subst hfx
      have hne : idx ≠ i := by
        intro hcontra
        subst hcontra
        rw [List.getElem?_set_self hidxlt] at hx
        simp at hx
      rw [List.getElem?_set_ne hne] at hx
      have h2 := hInv.live_ok i w hx
      show blockAliveAt (p.blocks.set block_idx _) i = true
      cases hgi : get_block_and_offset p.blocks i with
      | none =>
        rw [blockAliveAt_of_gbo_none hgi] at h2
        exact absurd h2 (by simp)
      | some pr =>
        obtain ⟨bk, ok⟩ := pr
        rw [blockAliveAt_set_retire_ne hb (hne_of_notin i bk ok hgi hnotin)]
        exact h2
  · -- non-retirement branch
    subst hq
    constructor
    · show p.count = (p.object_ptrs.set idx none).length
      rw [List.length_set]
      exact hInv.len_eq
    · show p.total_capacity = capSum (p.blocks.set block_idx _)
      rw [capSum_set_rc (b.refcount - 1) hb]
      exact hInv.cap_eq
    · exact hInv.count_le
    · intro i hi
      replace hi : i ∈ p.free_list ++ [idx] := hi
      rcases List.mem_append.mp hi with hmem | hmem
      · obtain ⟨h1, h2⟩ := hInv.free_mem i hmem
        have hne : idx ≠ i := by
          intro hcontra
          subst hcontra
          rw [hent] at h1
          simp at h1
        constructor
        · show (p.object_ptrs.set idx none)[i]? = some none
          rw [List.getElem?_set_ne hne]
          exact h1
        · show blockAliveAt (p.blocks.set block_idx _) i = true
          rw [blockAliveAt_set_rc (b.refcount - 1) hb]
          exact h2
      · simp only [List.mem_singleton] at hmem
        subst hmem
        constructor
        · show (p.object_ptrs.set i none)[i]? = some none
          rw [List.getElem?_set_self hidxlt]
        · show blockAliveAt (p.blocks.set block_idx _) i = true
          rw [blockAliveAt_set_rc (b.refcount - 1) hb]
          exact halive_idx
    · exact hnd1
    · intro i w hw
      replace hw : (p.object_ptrs.set idx none)[i]? = some (some w) := hw
      have hne : idx ≠ i := by
        intro hcontra
        subst hcontra
        rw [List.getElem?_set_self hidxlt] at hw
        simp at hw
      rw [List.getElem?_set_ne hne] at hw
      show blockAliveAt (p.blocks.set block_idx _) i = true
      rw [blockAliveAt_set_rc (b.refcount - 1) hb]
      exact hInv.live_ok i w hw

theorem inv_step {p : pool T} {op : Op T} {q : pool T}
    (hInv : Inv p) (h : step p op = some q) : Inv q := by
  cases op with
  | push v =>
    simp only [step, Option.map_eq_some'] at h
    obtain ⟨⟨j, q0⟩, hpb, hq⟩ := h
    subst hq
    exact inv_push_back hInv hpb
  | pushThrow => exact inv_push_throw hInv h
  | eraseIdx i => exact inv_erase hInv h

theorem inv_runFrom {p : pool T} {ops : List (Op T)} {q : pool T}
    (hInv : Inv p) (h : runFrom p ops = some q) : Inv q := by
  induction ops generalizing p with
  | nil =>
    simp only [runFrom, Option.some.injEq] at h
    subst h
    exact hInv
  | cons op rest ih =>
    simp only [runFrom] at h
    cases hs : step p op with
    | none => rw [hs] at h; simp at h
    | some p2 =>
      rw [hs] at h
      exact ih (inv_step hInv hs) h

theorem inv_run {initial_capacity : Nat} {ops : List (Op T)} {p : pool T}
    (h : run T initial_capacity ops = some p) : Inv p :=
  inv_runFrom (inv_init initial_capacity) h

theorem blockAliveAt_set_eval {bs : List BlockInfo} {bi : Nat} {b b' : BlockInfo}
    (hb : bs[bi]? = some b) (hc : b'.capacity = b.capacity) {k ok : Nat}
    (hk : get_block_and_offset bs k = some (bi, ok)) :
    blockAliveAt (bs.set bi b') k = b'.alive := by
  have hlt : bi < bs.length := (List.getElem?_eq_some.mp hb).1
  unfold blockAliveAt
  rw [gbo_congr (capMap_set hb hc) k, hk, Option.some_bind,
    List.getElem?_set_self (by simpa using hlt)]
  rfl

theorem blockAliveAt_set_retire_eval {bs : List BlockInfo} {bi : Nat} {b : BlockInfo}
    (hb : bs[bi]? = some b) {k ok : Nat}
    (hk : get_block_and_offset bs k = some (bi, ok)) :
    blockAliveAt (bs.set bi { b with refcount := 0, alive := false }) k = false :=
  @blockAliveAt_set_eval bs bi b { b with refcount := 0, alive := false } hb rfl k ok hk

theorem blockAliveAt_true_elim {bs : List BlockInfo} {i : Nat}
    (h : blockAliveAt bs i = true) :
    ∃ bi off b, get_block_and_offset bs i = some (bi, off) ∧
      bs[bi]? = some b ∧ b.alive = true := by
  unfold blockAliveAt at h
  cases hg : get_block_and_offset bs i with
  | none =>
    rw [hg] at h
    simp at h
  | some pr =>
    obtain ⟨bi, off⟩ := pr
    rw [hg, Option.some_bind] at h
    cases hb : bs[bi]? with
    | none =>
      rw [hb] at h
      simp at h
    | some b =>
      rw [hb] at h
      exact ⟨bi, off, b, rfl, hb, by simpa using h⟩

theorem is_alive_eq_of_entry_eq {p r : pool T} {i : Nat}
    (h : p.object_ptrs[i]? = r.object_ptrs[i]?) : is_alive p i = is_alive r i := by
  unfold is_alive
  rw [h]

theorem grow_object_ptrs (p : pool T) : (grow p).object_ptrs = p.object_ptrs := rfl

theorem grow_count (p : pool T) : (grow p).count = p.count := rfl

theorem grow_free_list (p : pool T) : (grow p).free_list = p.free_list := rfl

theorem grow_capacity_le (p : pool T) : p.total_capacity ≤ (grow p).total_capacity := by
  show p.total_capacity ≤ p.total_capacity + p.block_size * 2
  omega

theorem if_grow_object_ptrs (p : pool T) (c : Prop) [Decidable c] :
    (if c then grow p else p).object_ptrs = p.object_ptrs := by
  by_cases h : c
  · rw [if_pos h]
    exact grow_object_ptrs p
  · rw [if_neg h]

theorem if_grow_count (p : pool T) (c : Prop) [Decidable c] :
    (if c then grow p else p).count = p.count := by
  by_cases h : c
  · rw [if_pos h]
    exact grow_count p
  · rw [if_neg h]

theorem if_grow_free_list (p : pool T) (c : Prop) [Decidable c] :
    (if c then grow p else p).free_list = p.free_list := by
  by_cases h : c
  · rw [if_pos h]
    exact grow_free_list p
  · rw [if_neg h]

theorem if_grow_capacity_le (p : pool T) (c : Prop) [Decidable c] :
    p.total_capacity ≤ (if c then grow p else p).total_capacity := by
  by_cases h : c
  · rw [if_pos h]
    exact grow_capacity_le p
  · rw [if_neg h]

theorem inv_if_grow {p : pool T} (hInv : Inv p) (c : Prop) [Decidable c] :
    Inv (if c then grow p else p) := by
  by_cases h : c
  · rw [if_pos h]
    exact inv_grow hInv
  · rw [if_neg h]
    exact hInv

theorem step_count_mono {p : pool T} {op : Op T} {q : pool T}
    (h : step p op = some q) : p.count ≤ q.count := by
  cases op with
  | push v =>
    simp only [step, Option.map_eq_some'] at h
    obtain ⟨⟨j, q0⟩, hpb, hq⟩ := h
    subst hq
    rcases push_back_spec hpb with
      ⟨block_idx, off, b, hl, hg, hb, ha, hq⟩ |
      ⟨p1, block_idx, off, b, hl, hp1, hg, hb, ha, hj, hq⟩
    · subst hq
      exact Nat.le_refl _
    · subst hq
      show p.count ≤ p1.count + 1
      rw [hp1, if_grow_count]
      omega
  | pushThrow =>
    rcases push_throw_spec h with ⟨-, hq⟩ | ⟨-, hq | hq⟩
    · subst hq
      exact Nat.le_refl _
    · subst hq
      exact Nat.le_refl _
    · subst hq
      rw [grow_count]
  | eraseIdx i =>
    obtain ⟨v, block_idx, off, b, hent, hg, hb, hbr⟩ := erase_spec h
    rcases hbr with ⟨-, hq⟩ | ⟨-, hq⟩ <;> subst hq <;> exact Nat.le_refl _

theorem step_capacity_mono {p : pool T} {op : Op T} {q : pool T}
    (h : step p op = some q) : p.total_capacity ≤ q.total_capacity := by
  cases op with
  | push v =>
    simp only [step, Option.map_eq_some'] at h
    obtain ⟨⟨j, q0⟩, hpb, hq⟩ := h
    subst hq
    rcases push_back_spec hpb with
      ⟨block_idx, off, b, hl, hg, hb, ha, hq⟩ |
      ⟨p1, block_idx, off, b, hl, hp1, hg, hb, ha, hj, hq⟩
    · subst hq
      exact Nat.le_refl _
    · subst hq
      show p.total_capacity ≤ p1.total_capacity
      rw [hp1]
      exact if_grow_capacity_le p _
  | pushThrow =>
    rcases push_throw_spec h with ⟨-, hq⟩ | ⟨-, hq | hq⟩
    · subst hq
      exact Nat.le_refl _
    · subst hq
      exact Nat.le_refl _
    · subst hq
      exact grow_capacity_le p
  | eraseIdx i =>
    obtain ⟨v, block_idx, off, b, hent, hg, hb, hbr⟩ := erase_spec h
    rcases hbr with ⟨-, hq⟩ | ⟨-, hq⟩ <;> subst hq <;> exact Nat.le_refl _

theorem lookup_eq_none_of_not_alive {p : pool T} {i : Nat}
    (h : is_alive p i = false) : lookup p i = none := by
  unfold is_alive at h
  unfold lookup
  cases he : p.object_ptrs[i]? with
  | none => rfl
  | some o =>
    cases o with
    | none => rfl
    | some v =>
      rw [he] at h
      simp at h

theorem erase_eq_none_of_not_alive {p : pool T} {i : Nat}
    (h : is_alive p i = false) : erase p i = none := by
  unfold is_alive at h
  unfold erase
  cases he : p.object_ptrs[i]? with
  | none => rfl
  | some o =>
    cases o with
    | none => rfl
    | some v =>
      rw [he] at h
      simp at h

theorem erase_isSome_of_alive {p : pool T} (hInv : Inv p) {i : Nat}
    (h : is_alive p i = true) : (erase p i).isSome = true := by
  obtain ⟨v, hent⟩ := is_alive_iff.mp h
  have hilt : i < p.object_ptrs.length := (List.getElem?_eq_some.mp hent).1
  have hglt : i < capSum p.blocks := by
    have h1 := hInv.len_eq
    have h2 := hInv.count_le
    have h3 := hInv.cap_eq
    omega
  have hs : (get_block_and_offset p.blocks i).isSome = true :=
    (gbo_isSome_iff p.blocks i).mpr hglt
  cases hg : get_block_and_offset p.blocks i with
  | none =>
    rw [hg] at hs
    simp at hs
  | some pr =>
    obtain ⟨bi, off⟩ := pr
    have hbl : bi < p.blocks.length := gbo_block_lt hg
    cases hb : p.blocks[bi]? with
    | none =>
      rw [List.getElem?_eq_none_iff] at hb
      omega
    | some b =>
      simp only [erase, hent, hg, hb]
      by_cases hrc : b.refcount - 1 = 0
      · rw [if_pos hrc]
        rfl
      · rw [if_neg hrc]
        rfl

theorem push_back_free_some {p : pool T} (hInv : Inv p) {j : Nat}
    (hl : p.free_list.getLast? = some j) (v : T) :
    ∃ block_idx off b,
      get_block_and_offset p.blocks j = some (block_idx, off) ∧
      p.blocks[block_idx]? = some b ∧ b.alive = true ∧
      push_back p v =
        some (j,
          { p with
            free_list := p.free_list.dropLast
            object_ptrs := p.object_ptrs.set j (some v)
            blocks := p.blocks.set block_idx { b with refcount := b.refcount + 1 } }) := by
  have hmem : j ∈ p.free_list := List.mem_of_getLast?_eq_some hl
  obtain ⟨hent, halive⟩ := hInv.free_mem j hmem
  obtain ⟨block_idx, off, b, hg, hb, ha⟩ := blockAliveAt_true_elim halive
  refine ⟨block_idx, off, b, hg, hb, ha, ?_⟩
  simp only [push_back, hl, hg, hb, ha]
  simp

theorem push_back_is_alive {p : pool T} (hInv : Inv p) {v : T} {j : Nat} {q : pool T}
    (h : push_back p v = some (j, q)) (i : Nat) :
    is_alive q i = (is_alive p i || decide (i = j)) := by
  rcases push_back_spec h with
    ⟨block_idx, off, b, hl, hg, hb, ha, hq⟩ |
    ⟨p1, block_idx, off, b, hl, hp1, hg, hb, ha, hj, hq⟩
  · have hmem : j ∈ p.free_list := List.mem_of_getLast?_eq_some hl
    obtain ⟨hentry, -⟩ := hInv.free_mem j hmem
    have hjlt : j < p.object_ptrs.length := (List.getElem?_eq_some.mp hentry).1
    subst hq
    by_cases hij : i = j
    · subst hij
      have h1 : is_alive
          { p with
            free_list := p.free_list.dropLast
            object_ptrs := p.object_ptrs.set i (some v)
            blocks := p.blocks.set block_idx { b with refcount := b.refcount + 1 } } i = true :=
        is_alive_entry (show (p.object_ptrs.set i (some v))[i]? = some (some v) by
          rw [List.getElem?_set_self hjlt])
      rw [h1, is_alive_false_of_none hentry]
      simp
    · have h3 := is_alive_eq_of_entry_eq
        (p := { p with
            free_list := p.free_list.dropLast
            object_ptrs := p.object_ptrs.set j (some v)
            blocks := p.blocks.set block_idx { b with refcount := b.refcount + 1 } })
        (r := p) (i := i)
        (show (p.object_ptrs.set j (some v))[i]? = p.object_ptrs[i]? by
          rw [List.getElem?_set_ne (fun hc => hij hc.symm)])
      rw [h3]
      simp [hij]
  · have hInv1 : Inv p1 := by
      rw [hp1]
      exact inv_if_grow hInv _
    have hops : p1.object_ptrs = p.object_ptrs := by
      rw [hp1]
      exact if_grow_object_ptrs p _
    have hjlen : j = p.object_ptrs.length := by
      rw [hj, hInv1.len_eq, hops]
    subst hq
    rcases Nat.lt_trichotomy i p.object_ptrs.length with hi | hi | hi
    · have h3 := is_alive_eq_of_entry_eq
        (p := { p1 with
            object_ptrs := p1.object_ptrs ++ [some v]
            blocks := p1.blocks.set block_idx { b with refcount := b.refcount + 1 }
            count := p1.count + 1 })
        (r := p) (i := i)
        (show (p1.object_ptrs ++ [some v])[i]? = p.object_ptrs[i]? by
          rw [List.getElem?_append_left (by rw [hops]; exact hi), hops])
      rw [h3]
      have hd : decide (i = j) = false := by
        simp only [decide_eq_false_iff_not]
        omega
      rw [hd, Bool.or_false]
    · have h1 : is_alive
          { p1 with
            object_ptrs := p1.object_ptrs ++ [some v]
            blocks := p1.blocks.set block_idx { b with refcount := b.refcount + 1 }
            count := p1.count + 1 } i = true :=
        is_alive_entry (show (p1.object_ptrs ++ [some v])[i]? = some (some v) by
          rw [hi, ← hops]
          exact List.getElem?_concat_length _ _)
      have h2 : is_alive p i = false :=
        is_alive_false_of_oob (List.getElem?_eq_none (by omega))
      rw [h1, h2]
      have hd : decide (i = j) = true := by
        simp only [decide_eq_true_eq]
        omega
      rw [hd]
      rfl
    · have h1 : is_alive
          { p1 with
            object_ptrs := p1.object_ptrs ++ [some v]
            blocks := p1.blocks.set block_idx { b with refcount := b.refcount + 1 }
            count := p1.count + 1 } i = false :=
        is_alive_false_of_oob (List.getElem?_eq_none (by
          simp only [List.length_append, List.length_singleton]
          rw [hops]
          omega))
      have h2 : is_alive p i = false :=
        is_alive_false_of_oob (List.getElem?_eq_none (by omega))
      have hd : decide (i = j) = false := by
        simp only [decide_eq_false_iff_not]
        omega
      rw [h1, h2, hd]
      rfl

theorem erase_is_alive {p : pool T} (hInv : Inv p) {idx : Nat} {q : pool T}
    (h : erase p idx = some q) (k : Nat) :
    is_alive q k = (is_alive p k && !decide (k = idx) && blockAliveAt q.blocks k) := by
  obtain ⟨v, block_idx, off, b, hent, hg, hb, hbr⟩ := erase_spec h
  have hidxlt : idx < p.object_ptrs.length := (List.getElem?_eq_some.mp hent).1
  obtain ⟨bb, hbb, hoffb, hsumb⟩ := gbo_spec hg
  rw [hb] at hbb
  injection hbb with hbb
  subst hbb
  rcases hbr with ⟨hrc, hq⟩ | ⟨hrc, hq⟩
  · -- retirement branch
    subst hq
    cases hgk : get_block_and_offset p.blocks k with
    | none =>
      have hklen : p.object_ptrs.length ≤ k := by
        have hnlt : ¬k < capSum p.blocks := by
          intro hlt2
          have hs2 := (gbo_isSome_iff p.blocks k).mpr hlt2
          rw [hgk] at hs2
          simp at hs2
        have h1 := hInv.len_eq
        have h2 := hInv.count_le
        have h3 := hInv.cap_eq
        omega
      have hpk : is_alive p k = false :=
        is_alive_false_of_oob (List.getElem?_eq_none hklen)
      have hqk : is_alive
          { p with
            object_ptrs := clearRange (p.object_ptrs.set idx none)
              (capSum (p.blocks.take block_idx)) b.capacity
            free_list := (p.free_list ++ [idx]).filter
              (fun i => !(decide (capSum (p.blocks.take block_idx) ≤ i ∧
                i < capSum (p.blocks.take block_idx) + b.capacity)))
            blocks := p.blocks.set block_idx { b with refcount := 0, alive := false } } k =
          false :=
        is_alive_false_of_oob (List.getElem?_eq_none (by
          show (clearRange (p.object_ptrs.set idx none)
            (capSum (p.blocks.take block_idx)) b.capacity).length ≤ k
          rw [clearRange_length, List.length_set]
          exact hklen))
      rw [hpk, hqk]
      rfl
    | some pr =>
      obtain ⟨bk, ok⟩ := pr
      by_cases hbk : bk = block_idx
      · subst hbk
        obtain ⟨bb2, hbb2, hok2, hksum2⟩ := gbo_spec hgk
        rw [hb] at hbb2
        injection hbb2 with hbb2
        subst hbb2
        have hcond : capSum (p.blocks.take bk) ≤ k ∧
            k < capSum (p.blocks.take bk) + b.capacity := ⟨by omega, by omega⟩
        have hqk : is_alive
            { p with
              object_ptrs := clearRange (p.object_ptrs.set idx none)
                (capSum (p.blocks.take bk)) b.capacity
              free_list := (p.free_list ++ [idx]).filter
                (fun i => !(decide (capSum (p.blocks.take bk) ≤ i ∧
                  i < capSum (p.blocks.take bk) + b.capacity)))
              blocks := p.blocks.set bk { b with refcount := 0, alive := false } } k =
            false := by
          cases hqa : is_alive
              { p with
                object_ptrs := clearRange (p.object_ptrs.set idx none)
                  (capSum (p.blocks.take bk)) b.capacity
                free_list := (p.free_list ++ [idx]).filter
                  (fun i => !(decide (capSum (p.blocks.take bk) ≤ i ∧
                    i < capSum (p.blocks.take bk) + b.capacity)))
                blocks := p.blocks.set bk { b with refcount := 0, alive := false } } k with
          | false => rfl
          | true =>
            obtain ⟨w, hw⟩ := is_alive_iff.mp hqa
            replace hw : (clearRange (p.object_ptrs.set idx none)
                (capSum (p.blocks.take bk)) b.capacity)[k]? = some (some w) := hw
            rw [clearRange_getElem?, Option.map_eq_some'] at hw
            obtain ⟨x, hx, hfx⟩ := hw
            rw [if_pos hcond] at hfx
            simp at hfx
        have hbl : blockAliveAt
            (p.blocks.set bk { b with refcount := 0, alive := false }) k = false :=
          blockAliveAt_set_retire_eval hb hgk
        rw [hqk, hbl]
        simp
      · have hnotin : ¬(capSum (p.blocks.take block_idx) ≤ k ∧
            k < capSum (p.blocks.take block_idx) + b.capacity) := by
          intro hcond
          exact hbk (gbo_unique hgk hb hcond.1 hcond.2)
        have hkne : k ≠ idx := by
          intro hcontra
          subst hcontra
          rw [hgk] at hg
          injection hg with hg2
          apply hbk
          exact congrArg Prod.fst hg2
        have hne2 : ∀ o, get_block_and_offset p.blocks k ≠ some (block_idx, o) := by
          intro o hcontra
          rw [hgk] at hcontra
          injection hcontra with hc2
          apply hbk
          exact congrArg Prod.fst hc2
        have hentry_eq : (clearRange (p.object_ptrs.set idx none)
            (capSum (p.blocks.take block_idx)) b.capacity)[k]? = p.object_ptrs[k]? := by
          rw [clearRange_getElem?, List.getElem?_set_ne (fun hc => hkne hc.symm)]
          cases p.object_ptrs[k]? with
          | none => rfl
          | some x =>
            simp [if_neg hnotin]
        have hLHS := is_alive_eq_of_entry_eq
          (p := { p with
              object_ptrs := clearRange (p.object_ptrs.set idx none)
                (capSum (p.blocks.take block_idx)) b.capacity
              free_list := (p.free_list ++ [idx]).filter
                (fun i => !(decide (capSum (p.blocks.take block_idx) ≤ i ∧
                  i < capSum (p.blocks.take block_idx) + b.capacity)))
              blocks := p.blocks.set block_idx { b with refcount := 0, alive := false } })
          (r := p) (i := k) hentry_eq
        have hbl : blockAliveAt
            (p.blocks.set block_idx { b with refcount := 0, alive := false }) k =
            blockAliveAt p.blocks k :=
          blockAliveAt_set_retire_ne hb hne2
        rw [hLHS]
        show is_alive p k =
          (is_alive p k && !decide (k = idx) &&
            blockAliveAt (p.blocks.set block_idx { b with refcount := 0, alive := false }) k)
        rw [hbl]
        have hd : (!decide (k = idx)) = true := by
          simp [hkne]
        rw [hd, Bool.and_true]
        cases hpa : is_alive p k with
        | false => rfl
        | true =>
          obtain ⟨w, hw⟩ := is_alive_iff.mp hpa
          rw [hInv.live_ok k w hw]
          rfl
  · -- non-retirement branch
    subst hq
    have hbl : ∀ m, blockAliveAt
        (p.blocks.set block_idx { b with refcount := b.refcount - 1 }) m =
        blockAliveAt p.blocks m :=
      blockAliveAt_set_rc (b.refcount - 1) hb
    by_cases hki : k = idx
    · subst hki
      have hqk : is_alive
          { p with
            object_ptrs := p.object_ptrs.set k none
            free_list := p.free_list ++ [k]
            blocks := p.blocks.set block_idx { b with refcount := b.refcount - 1 } } k =
          false :=
        is_alive_false_of_none (by
          show (p.object_ptrs.set k none)[k]? = some none
          rw [List.getElem?_set_self hidxlt])
      rw [hqk]
      have hd : decide (k = k) = true := by simp
      rw [hd]
      simp
    · have hentry_eq : (p.object_ptrs.set idx none)[k]? = p.object_ptrs[k]? :=
        List.getElem?_set_ne (fun hc => hki hc.symm)
      have hLHS := is_alive_eq_of_entry_eq
        (p := { p with
            object_ptrs := p.object_ptrs.set idx none
            free_list := p.free_list ++ [idx]
            blocks := p.blocks.set block_idx { b with refcount := b.refcount - 1 } })
        (r := p) (i := k) hentry_eq
      rw [hLHS]
      show is_alive p k =
        (is_alive p k && !decide (k = idx) &&
          blockAliveAt (p.blocks.set block_idx { b with refcount := b.refcount - 1 }) k)
      rw [hbl k]
      have hd : (!decide (k = idx)) = true := by
        simp [hki]
      rw [hd, Bool.and_true]
      cases hpa : is_alive p k with
      | false => rfl
      | true =>
        obtain ⟨w, hw⟩ := is_alive_iff.mp hpa
        rw [hInv.live_ok k w hw]
        rfl

end pool

section Sanity

example : (pool.run Nat 4 [Op.push 0, Op.eraseIdx 0]).isSome = true := by decide

example :
    pool.run Nat 4 [Op.push 0, Op.eraseIdx 0] =
      some { blocks := [⟨false, 4, 0⟩], object_ptrs := [none], free_list := [],
             block_size := 4, count := 1, total_capacity := 4 } := by decide

example : pool.run Nat 4 [Op.push 0, Op.eraseIdx 0, Op.push 1] = none := by decide

example :
    (pool.run Nat 4 [Op.push 10, Op.push 11, Op.push 12, Op.push 13, Op.push 14]).map
      pool.capacity = some 12 := by decide

end Sanity

section Claims

/-- C1, counterexample: the claim "`size()` equals the number of indices
currently alive, and inserting then removing everything leaves
`size() == 0`" is false on the code: `count` is never decremented by
`erase`, so after `pool<int> p(4); p.push_back(0); p.erase(0);` the pool
has no live object but `size()` still returns 1. -/
theorem C1_counterexample :
    pool.run Nat 4 [Op.push 0, Op.eraseIdx 0] = some pool.pA ∧
    pool.size pool.pA = 1 ∧
    pool.live_count pool.pA = 0 ∧
    pool.size pool.pA ≠ pool.live_count pool.pA := by
  decide

/-- C1, amended: in every reachable state, `size()` equals the number of
indices ever issued by the append path (the length of `object_ptrs`), and
it never decreases under any operation; in particular inserting N objects
into a fresh pool and removing all of them leaves `size() == N`, not 0. -/
theorem C1_size_counts_issued {V : Type} {c : Nat} {ops : List (Op V)} {p : pool V}
    (h : pool.run V c ops = some p) :
    pool.size p = p.object_ptrs.length ∧
    ∀ op q, pool.step p op = some q → pool.size p ≤ pool.size q :=
  ⟨(pool.inv_run h).len_eq, fun _ _ hs => pool.step_count_mono hs⟩

/-- C1, witness: the amended theorem applied to the concrete one-push run. -/
theorem C1_size_counts_issued_witness :
    pool.run Nat 2 [Op.push 7] = some pool.pW1 ∧
    pool.size pool.pW1 = pool.pW1.object_ptrs.length :=
  ⟨by decide, (C1_size_counts_issued (by decide : pool.run Nat 2 [Op.push 7] = some pool.pW1)).1⟩

/-- C2, counterexample: the claim that `capacity()` decreases by the
block's capacity exactly when a block is retired is false on the code:
`erase` never touches `total_capacity`.  After `pool<int> p(4);
p.push_back(0);` the erase of index 0 retires block 0 (its pointer is
nulled), yet `capacity()` stays 4 instead of dropping to 0. -/
theorem C2_counterexample :
    pool.run Nat 4 [Op.push 0] =
      some (⟨[⟨true, 4, 1⟩], [some 0], [], 4, 1, 4⟩ : pool Nat) ∧
    pool.erase (⟨[⟨true, 4, 1⟩], [some 0], [], 4, 1, 4⟩ : pool Nat) 0 = some pool.pA ∧
    pool.pA.blocks = [⟨false, 4, 0⟩] ∧
    pool.capacity pool.pA = 4 ∧
    pool.capacity pool.pA ≠ 0 := by
  decide

/-- C2, amended: in every reachable state `capacity()` equals the capacity
sum of all blocks ever allocated (retired blocks keep their entry in the
block list), and it is monotonically non-decreasing under every operation
-- block retirement does not decrease it. -/
theorem C2_capacity_sum_monotone {V : Type} {c : Nat} {ops : List (Op V)} {p : pool V}
    (h : pool.run V c ops = some p) :
    pool.capacity p = pool.capSum p.blocks ∧
    ∀ op q, pool.step p op = some q → pool.capacity p ≤ pool.capacity q :=
  ⟨(pool.inv_run h).cap_eq, fun _ _ hs => pool.step_capacity_mono hs⟩

/-- C2, witness: the amended theorem applied to the concrete one-push run. -/
theorem C2_capacity_sum_monotone_witness :
    pool.run Nat 2 [Op.push 7] = some pool.pW1 ∧
    pool.capacity pool.pW1 = pool.capSum pool.pW1.blocks :=
  ⟨by decide, (C2_capacity_sum_monotone (by decide : pool.run Nat 2 [Op.push 7] = some pool.pW1)).1⟩

/-- C3: after `pool<int> p(4); p.push_back(0); p.erase(0);` block 0 is
retired (`ptr == nullptr`), but the next append-path insert computes its
slot from `count = 1`, which `get_block_and_offset` places at offset 1 of
the retired block 0: the C++ code placement-constructs into freed memory
reached through the null block pointer (undefined behaviour / crash).  The
model evaluates the whole run to `none`. -/
theorem C3_retired_block_reuse :
    pool.run Nat 4 [Op.push 0, Op.eraseIdx 0] = some pool.pA ∧
    pool.pA.blocks = [⟨false, 4, 0⟩] ∧
    pool.size pool.pA = 1 ∧
    pool.get_block_and_offset pool.pA.blocks (pool.size pool.pA) = some (0, 1) ∧
    pool.push_back pool.pA (1 : Nat) = none ∧
    pool.run Nat 4 [Op.push 0, Op.eraseIdx 0, Op.push 1] = none := by
  decide

/-- C4: in every reachable state `is_alive` is total and returns `false`
for never-issued indices, for free-list (removed) indices and for indices
of retired blocks; a successful insert flips exactly the issued index to
alive, and a successful remove leaves an index alive exactly if it was
alive, is not the removed one, and its block survived the removal. -/
theorem C4_is_alive_characterization {V : Type} {c : Nat} {ops : List (Op V)} {p : pool V}
    (h : pool.run V c ops = some p) :
    (∀ i, p.object_ptrs.length ≤ i → pool.is_alive p i = false) ∧
    (∀ i, i ∈ p.free_list → pool.is_alive p i = false) ∧
    (∀ i, pool.blockAliveAt p.blocks i = false → pool.is_alive p i = false) ∧
    (∀ v j q, pool.push_back p v = some (j, q) →
      ∀ i, pool.is_alive q i = (pool.is_alive p i || decide (i = j))) ∧
    (∀ idx q, pool.erase p idx = some q →
      ∀ k, pool.is_alive q k =
        (pool.is_alive p k && !decide (k = idx) && pool.blockAliveAt q.blocks k)) := by
  have hInv := pool.inv_run h
  refine ⟨?_, ?_, ?_, ?_, ?_⟩
  · intro i hi
    exact pool.is_alive_false_of_oob (List.getElem?_eq_none hi)
  · intro i hi
    exact pool.is_alive_false_of_none (hInv.free_mem i hi).1
  · intro i hba
    cases hpa : pool.is_alive p i with
    | false => rfl
    | true =>
      obtain ⟨v, hv⟩ := pool.is_alive_iff.mp hpa
      rw [hInv.live_ok i v hv] at hba
      exact absurd hba (by simp)
  · intro v j q hpb i
    exact pool.push_back_is_alive hInv hpb i
  · intro idx q he k
    exact pool.erase_is_alive hInv he k

/-- C4, witness: the characterization applied to the concrete one-push
run, at the never-issued index 5. -/
theorem C4_is_alive_characterization_witness :
    pool.run Nat 2 [Op.push 7] = some pool.pW1 ∧
    pool.is_alive pool.pW1 5 = false :=
  ⟨by decide, (C4_is_alive_characterization (by decide : pool.run Nat 2 [Op.push 7] = some pool.pW1)).1 5 (by decide)⟩

/-- C5, counterexample: the claim that after a constructor throw "a popped
free-list index is still available for reuse" is false on the code: the
free-list pop happens before the placement `new`, and nothing restores the
index when the constructor throws.  Starting from the state with free list
`[0]`, a throwing insert leaves the free list empty and index 0 dead, so
slot 0 is permanently lost. -/
theorem C5_counterexample :
    pool.run Nat 2 [Op.push 0, Op.push 1, Op.eraseIdx 0] = some pool.pB ∧
    pool.pB.free_list = [0] ∧
    pool.push_throw pool.pB = some pool.qB ∧
    pool.qB.free_list = [] ∧
    pool.is_alive pool.qB 0 = false := by
  decide

/-- C5, amended: a constructor throw during insert leaves the stored
objects, the liveness of every index and `size()` unchanged, and issues no
index; but on the free-list path the popped index has already been removed
from the free list and is not restored (its slot is lost for reuse), and
on the append path a growth triggered before the construction persists. -/
theorem C5_ctor_throw_accounting {V : Type} {p q : pool V}
    (h : pool.push_throw p = some q) :
    q.object_ptrs = p.object_ptrs ∧
    pool.size q = pool.size p ∧
    (∀ i, pool.is_alive q i = pool.is_alive p i) ∧
    pool.live_count q = pool.live_count p ∧
    (p.free_list ≠ [] → q = { p with free_list := p.free_list.dropLast }) ∧
    (p.free_list = [] → q = p ∨ q = pool.grow p) := by
  have hops : q.object_ptrs = p.object_ptrs := by
    rcases pool.push_throw_spec h with ⟨-, hq⟩ | ⟨-, hq | hq⟩ <;> subst hq <;> rfl
  have hcount : pool.size q = pool.size p := by
    rcases pool.push_throw_spec h with ⟨-, hq⟩ | ⟨-, hq | hq⟩ <;> subst hq <;> rfl
  refine ⟨hops, hcount, ?_, ?_, ?_, ?_⟩
  · intro i
    exact pool.is_alive_eq_of_entry_eq (by rw [hops])
  · unfold pool.live_count
    rw [hops]
  · intro hne
    rcases pool.push_throw_spec h with ⟨-, hq⟩ | ⟨hnil, -⟩
    · exact hq
    · exact absurd hnil hne
  · intro hnil
    rcases pool.push_throw_spec h with ⟨hne, -⟩ | ⟨-, hq⟩
    · exact absurd hnil hne
    · exact hq

/-- C5, witness: the amended theorem applied to the concrete throwing
insert on the state with free list `[0]`. -/
theorem C5_ctor_throw_accounting_witness :
    pool.push_throw pool.pB = some pool.qB ∧
    pool.live_count pool.qB = pool.live_count pool.pB :=
  ⟨by decide, (C5_ctor_throw_accounting (by decide)).2.2.2.1⟩

/-- C6: in every reachable state, lookup (`operator[]`) and remove
(`erase`) succeed exactly on live indices, and fail with `out_of_range`
(`none`) on never-issued indices, on free-list (already removed) indices
and on indices whose block was retired; the failing check runs before any
mutation, so a failed call leaves the state untouched. -/
theorem C6_lookup_erase_out_of_range {V : Type} {c : Nat} {ops : List (Op V)} {p : pool V}
    (h : pool.run V c ops = some p) (i : Nat) :
    ((pool.lookup p i).isSome = pool.is_alive p i) ∧
    ((pool.erase p i).isSome = pool.is_alive p i) ∧
    (p.object_ptrs.length ≤ i → pool.lookup p i = none ∧ pool.erase p i = none) ∧
    (i ∈ p.free_list → pool.lookup p i = none ∧ pool.erase p i = none) ∧
    (∀ bi ofs b, pool.get_block_and_offset p.blocks i = some (bi, ofs) →
      p.blocks[bi]? = some b → b.alive = false →
      pool.lookup p i = none ∧ pool.erase p i = none) := by
  have hInv := pool.inv_run h
  have hboth : pool.is_alive p i = false →
      pool.lookup p i = none ∧ pool.erase p i = none :=
    fun hf => ⟨pool.lookup_eq_none_of_not_alive hf, pool.erase_eq_none_of_not_alive hf⟩
  refine ⟨pool.lookup_isSome_eq_is_alive p i, ?_, ?_, ?_, ?_⟩
  · cases hpa : pool.is_alive p i with
    | true => exact pool.erase_isSome_of_alive hInv hpa
    | false =>
      rw [pool.erase_eq_none_of_not_alive hpa]
      rfl
  · intro hle
    exact hboth (pool.is_alive_false_of_oob (List.getElem?_eq_none hle))
  · intro hmem
    exact hboth (pool.is_alive_false_of_none (hInv.free_mem i hmem).1)
  · intro bi ofs b hg hb ha
    apply hboth
    cases hpa : pool.is_alive p i with
    | false => rfl
    | true =>
      obtain ⟨v, hv⟩ := pool.is_alive_iff.mp hpa
      have hlive := hInv.live_ok i v hv
      rw [pool.blockAliveAt_eval hg hb, ha] at hlive
      exact absurd hlive (by simp)

/-- C6, witness: the theorem applied to the concrete one-push run at the
never-issued index 3. -/
theorem C6_lookup_erase_out_of_range_witness :
    pool.run Nat 2 [Op.push 7] = some pool.pW1 ∧
    (pool.lookup pool.pW1 3 = none ∧ pool.erase pool.pW1 3 = none) :=
  ⟨by decide, (C6_lookup_erase_out_of_range (by decide : pool.run Nat 2 [Op.push 7] = some pool.pW1) 3).2.2.1 (by decide)⟩

/-- C7: when the free list is empty and the pool is full, the insert
allocates exactly one new block of size `block_size * 2` (geometric
doubling starting from the initial capacity), appends it, adds its size to
`capacity()`, and stores the new object under index `size()`. -/
theorem C7_growth_doubling {V : Type} {p : pool V} {v : V} {j : Nat} {q : pool V}
    (hfl : p.free_list = []) (hfull : pool.size p = pool.capacity p)
    (h : pool.push_back p v = some (j, q)) :
    j = pool.size p ∧
    q.blocks.map (fun b => b.capacity) =
      p.blocks.map (fun b => b.capacity) ++ [p.block_size * 2] ∧
    pool.capacity q = pool.capacity p + p.block_size * 2 ∧
    q.block_size = p.block_size * 2 := by
  rcases pool.push_back_spec h with
    ⟨block_idx, off, b, hl, -, -, -, -⟩ |
    ⟨p1, block_idx, off, b, hl, hp1, hg, hb, ha, hj, hq⟩
  · rw [hfl] at hl
    simp at hl
  · have hfull2 : p.count = p.total_capacity := hfull
    have hp1g : p1 = pool.grow p := by
      rw [hp1, if_pos hfull2]
    subst hq
    subst hp1g
    refine ⟨?_, ?_, ?_, ?_⟩
    · rw [hj]
      rfl
    · show ((pool.grow p).blocks.set block_idx
          { b with refcount := b.refcount + 1 }).map (fun x => x.capacity) =
        p.blocks.map (fun x => x.capacity) ++ [p.block_size * 2]
      rw [pool.capMap_set_rc (b.refcount + 1) hb]
      show (p.blocks ++ [(⟨true, p.block_size * 2, 0⟩ : BlockInfo)]).map (fun x => x.capacity) =
        p.blocks.map (fun x => x.capacity) ++ [p.block_size * 2]
      simp
    · rfl
    · rfl

/-- C7, witness: the growth theorem applied to the full pool of initial
capacity 4 holding four objects — the fifth insert grows it by 8 to a
total capacity of 12 and stores under index 4. -/
theorem C7_growth_doubling_witness :
    pool.push_back pool.p4c (9 : Nat) = some (4, pool.q4c) ∧
    pool.capacity pool.q4c = pool.capacity pool.p4c + pool.p4c.block_size * 2 ∧
    pool.capacity pool.q4c = 12 :=
  ⟨by decide,
   (C7_growth_doubling (rfl : pool.p4c.free_list = [])
     (rfl : pool.size pool.p4c = pool.capacity pool.p4c)
     (by decide : pool.push_back pool.p4c (9 : Nat) = some (4, pool.q4c))).2.2.1,
   by decide⟩

/-- C8: whenever the free list is non-empty, an insert succeeds by popping
the back of the free list and constructing there: the returned index is
the popped one, no block is allocated, `capacity()` and `size()` are
unchanged, and the value is stored under the popped index. -/
theorem C8_free_list_reuse {V : Type} {c : Nat} {ops : List (Op V)} {p : pool V}
    (h : pool.run V c ops = some p) (v : V) {j : Nat}
    (hl : p.free_list.getLast? = some j) :
    (pool.push_back p v).isSome = true ∧
    ∀ j' q, pool.push_back p v = some (j', q) →
      j' = j ∧
      pool.capacity q = pool.capacity p ∧
      q.blocks.map (fun b => b.capacity) = p.blocks.map (fun b => b.capacity) ∧
      pool.size q = pool.size p ∧
      q.free_list = p.free_list.dropLast ∧
      pool.lookup q j = some v := by
  have hInv := pool.inv_run h
  have hmem : j ∈ p.free_list := List.mem_of_getLast?_eq_some hl
  have hjlt : j < p.object_ptrs.length :=
    (List.getElem?_eq_some.mp (hInv.free_mem j hmem).1).1
  obtain ⟨block_idx, off, b, hg, hb, ha, hpb⟩ := pool.push_back_free_some hInv hl v
  constructor
  · rw [hpb]
    rfl
  · intro j' q hpb'
    rw [hpb, Option.some.injEq, Prod.mk.injEq] at hpb'
    obtain ⟨hj', hq⟩ := hpb'
    subst hj'
    subst hq
    refine ⟨rfl, rfl, ?_, rfl, rfl, ?_⟩
    · exact pool.capMap_set_rc (b.refcount + 1) hb
    · apply pool.lookup_eq_some_iff.mpr
      show (p.object_ptrs.set j (some v))[j]? = some (some v)
      rw [List.getElem?_set_self hjlt]

/-- C8, witness: the free-list-first theorem applied to the state with
free list `[0]`: the insert reuses index 0 and capacity is unchanged. -/
theorem C8_free_list_reuse_witness :
    (pool.push_back pool.pB (5 : Nat)).isSome = true ∧
    pool.capacity (⟨[⟨true, 2, 2⟩], [some 5, some 1], [], 2, 2, 2⟩ : pool Nat) =
      pool.capacity pool.pB :=
  ⟨(C8_free_list_reuse (by decide : pool.run Nat 2 [Op.push 0, Op.push 1, Op.eraseIdx 0] = some pool.pB) 5 (by decide : pool.pB.free_list.getLast? = some 0)).1,
   ((C8_free_list_reuse (by decide : pool.run Nat 2 [Op.push 0, Op.push 1, Op.eraseIdx 0] = some pool.pB) 5 (by decide : pool.pB.free_list.getLast? = some 0)).2 0
     ⟨[⟨true, 2, 2⟩], [some 5, some 1], [], 2, 2, 2⟩ (by decide)).2.1⟩

/-- C9: the value stored by a successful insert and retrieved via lookup
of the returned index is exactly the inserted value (which in C++ is the
`T` directly constructed from the forwarded arguments). -/
theorem C9_round_trip {V : Type} {c : Nat} {ops : List (Op V)} {p : pool V}
    (h : pool.run V c ops = some p) {v : V} {j : Nat} {q : pool V}
    (hpb : pool.push_back p v = some (j, q)) :
    pool.lookup q j = some v := by
  have hInv := pool.inv_run h
  apply pool.lookup_eq_some_iff.mpr
  rcases pool.push_back_spec hpb with
    ⟨block_idx, off, b, hl, hg, hb, ha, hq⟩ |
    ⟨p1, block_idx, off, b, hl, hp1, hg, hb, ha, hj, hq⟩
  · have hmem : j ∈ p.free_list := List.mem_of_getLast?_eq_some hl
    have hjlt : j < p.object_ptrs.length :=
      (List.getElem?_eq_some.mp (hInv.free_mem j hmem).1).1
    subst hq
    show (p.object_ptrs.set j (some v))[j]? = some (some v)
    rw [List.getElem?_set_self hjlt]
  · have hInv1 : pool.Inv p1 := by
      rw [hp1]
      exact pool.inv_if_grow hInv _
    subst hq
    show (p1.object_ptrs ++ [some v])[j]? = some (some v)
    rw [hj, hInv1.len_eq]
    exact List.getElem?_concat_length _ _

/-- C9, witness: the round-trip theorem applied to a concrete insert of 3
into the one-element pool. -/
theorem C9_round_trip_witness :
    pool.push_back pool.pW1 (3 : Nat) =
      some (1, (⟨[⟨true, 2, 2⟩], [some 7, some 3], [], 2, 2, 2⟩ : pool Nat)) ∧
    pool.lookup (⟨[⟨true, 2, 2⟩], [some 7, some 3], [], 2, 2, 2⟩ : pool Nat) 1 = some 3 :=
  ⟨by decide, C9_round_trip (by decide : pool.run Nat 2 [Op.push 7] = some pool.pW1)
    (by decide : pool.push_back pool.pW1 (3 : Nat) =
      some (1, (⟨[⟨true, 2, 2⟩], [some 7, some 3], [], 2, 2, 2⟩ : pool Nat)))⟩

/-- C10: an insert taken while the free list is empty records the object
under the global index `size()`, the number of indices issued so far (the
length of `object_ptrs`), and extends both by one — so fresh indices are
issued consecutively 0, 1, 2, ... in insertion order. -/
theorem C10_append_consecutive {V : Type} {c : Nat} {ops : List (Op V)} {p : pool V}
    (h : pool.run V c ops = some p) (hfl : p.free_list = [])
    {v : V} {j : Nat} {q : pool V} (hpb : pool.push_back p v = some (j, q)) :
    j = p.object_ptrs.length ∧
    j = pool.size p ∧
    pool.size q = j + 1 ∧
    q.object_ptrs.length = j + 1 ∧
    pool.lookup q j = some v := by
  have hInv := pool.inv_run h
  rcases pool.push_back_spec hpb with
    ⟨block_idx, off, b, hl, -, -, -, -⟩ |
    ⟨p1, block_idx, off, b, hl, hp1, hg, hb, ha, hj, hq⟩
  · rw [hfl] at hl
    simp at hl
  · have hInv1 : pool.Inv p1 := by
      rw [hp1]
      exact pool.inv_if_grow hInv _
    have hops : p1.object_ptrs = p.object_ptrs := by
      rw [hp1]
      exact pool.if_grow_object_ptrs p _
    have hcnt : p1.count = p.count := by
      rw [hp1]
      exact pool.if_grow_count p _
    subst hq
    have hjlen : j = p.object_ptrs.length := by
      rw [hj, hInv1.len_eq, hops]
    refine ⟨hjlen, ?_, ?_, ?_, ?_⟩
    · rw [hj, hcnt]
      rfl
    · show p1.count + 1 = j + 1
      rw [hj]
    · show (p1.object_ptrs ++ [some v]).length = j + 1
      simp [hops, hjlen]
    · apply pool.lookup_eq_some_iff.mpr
      show (p1.object_ptrs ++ [some v])[j]? = some (some v)
      rw [hj, hInv1.len_eq]
      exact List.getElem?_concat_length _ _

/-- C10, witness: the append theorem applied to the one-element pool: the
second insert receives index 1 = number of indices issued so far. -/
theorem C10_append_consecutive_witness :
    pool.push_back pool.pW1 (9 : Nat) =
      some (1, (⟨[⟨true, 2, 2⟩], [some 7, some 9], [], 2, 2, 2⟩ : pool Nat)) ∧
    (1 : Nat) = pool.pW1.object_ptrs.length :=
  ⟨by decide,
   (C10_append_consecutive (by decide : pool.run Nat 2 [Op.push 7] = some pool.pW1)
     rfl (by decide : pool.push_back pool.pW1 (9 : Nat) =
       some (1, (⟨[⟨true, 2, 2⟩], [some 7, some 9], [], 2, 2, 2⟩ : pool Nat)))).1⟩

end Claims
